import Mathlib

/-!
Verification of the RSS reader pipeline in `src/main.py`.

The development shallowly embeds the transformation pipeline
(parse → extract → filter → limit → render) of the Python source.
Python's `xml.etree.ElementTree` library is modelled by an explicit
element tree (`Element`) together with a small tokenizer/parser
(`tokenize`, `parseSeq`, `fromstring`) covering the XML fragment the
program relies on (elements, nested children, text content; no
attributes).  `find`/`findtext`/`findall` follow the documented
ElementTree semantics: a plain tag name matches direct children only,
and a found element with no text yields the empty string.  Python's
string containment (`in`), slicing (`items[:n]`), `html.unescape`
(on the basic named entities), and `re.sub` with the pattern
`<[^>]+>` are each modelled by a dedicated Lean function.  `json.dumps`
is modelled structurally: the rendered JSON document is represented as
an ordered key/value list rather than a serialized string, which is
what the round-trip properties are about.
-/

/-- An XML element: tag name, text content (Python's `None` text is
merged with the empty string, exactly as `findtext` and the truthiness
tests in the source treat it), and the list of direct children in
document order. -/
inductive Element where
  | mk (tag : String) (text : String) (children : List Element)

/-- Tag name of an element. -/
def Element.tag : Element → String
  | .mk t _ _ => t

/-- Text content of an element (empty string when absent). -/
def Element.text : Element → String
  | .mk _ x _ => x

/-- Direct children of an element, in document order. -/
def Element.children : Element → List Element
  | .mk _ _ c => c

/-- Splits a character list at the first `>` character: returns the
part strictly before it (which contains no `>`) and the part after it. -/
def splitAtGt : List Char → Option (List Char × List Char)
  | [] => none
  | c :: rest =>
    if c = '>' then some ([], rest)
    else
      match splitAtGt rest with
      | some (b, a) => some (c :: b, a)
      | none => none

/-- Lexer tokens of the modelled XML fragment. -/
inductive Tok where
  | openTag (t : String)
  | closeTag (t : String)
  | textTok (s : String)
deriving DecidableEq

/-- Models the lexing phase of `xml.etree.ElementTree.fromstring`:
splits the input into open tags, close tags and text runs.  Fuel-based
so that it evaluates by `rfl`/`decide`; the callers always supply
enough fuel (one unit per character suffices). -/
def tokenize : Nat → List Char → Except String (List Tok)
  | 0, _ => .error "tokenizer out of fuel"
  | _, [] => .ok []
  | f + 1, '<' :: rest =>
    match splitAtGt rest with
    | none => .error "unclosed tag"
    | some ([], _) => .error "malformed tag"
    | some ('/' :: name, after) =>
      match tokenize f after with
      | .error e => .error e
      | .ok ts => .ok (Tok.closeTag (String.mk name) :: ts)
    | some (name, after) =>
      match tokenize f after with
      | .error e => .error e
      | .ok ts => .ok (Tok.openTag (String.mk name) :: ts)
  | f + 1, c :: rest =>
    match tokenize f (List.dropWhile (fun x => !(x == '<')) (c :: rest)) with
    | .error e => .error e
    | .ok ts =>
      .ok (Tok.textTok (String.mk (List.takeWhile (fun x => !(x == '<')) (c :: rest))) :: ts)

/-- Models the tree-building phase of `xml.etree.ElementTree.fromstring`:
parses a sequence of sibling elements (skipping interleaved tail text),
stopping at a close tag or at the end of input.  Returns the siblings
and the unconsumed tokens.  Fuel-based; callers supply enough fuel. -/
def parseSeq : Nat → List Tok → Except String (List Element × List Tok)
  | 0, _ => .error "out of fuel"
  | _ + 1, [] => .ok ([], [])
  | _ + 1, Tok.closeTag t :: rest => .ok ([], Tok.closeTag t :: rest)
  | f + 1, Tok.textTok _ :: rest => parseSeq f rest
  | f + 1, Tok.openTag t :: rest =>
    match
      (match rest with
       | Tok.textTok s :: r => (s, r)
       | _ => ("", rest)) with
    | (txt, rest2) =>
      match parseSeq f rest2 with
      | .error e => .error e
      | .ok (children, rest3) =>
        match rest3 with
        | Tok.closeTag t2 :: rest4 =>
          if t = t2 then
            match parseSeq f rest4 with
            | .error e => .error e
            | .ok (sibs, rest5) => .ok (Element.mk t txt children :: sibs, rest5)
          else .error "mismatched tag"
        | _ => .error "no element found"

/-- Models `xml.etree.ElementTree.fromstring`: lexes and parses the
document, requiring exactly one root element and no trailing tokens.
The diagnostic strings are modelled (the program only ever forwards
them verbatim). -/
def fromstring (s : String) : Except String Element :=
  match tokenize (s.data.length + 1) s.data with
  | .error e => .error e
  | .ok toks =>
    match parseSeq (toks.length + 1) toks with
    | .error e => .error e
    | .ok (roots, rest) =>
      match rest, roots with
      | [], [root] => .ok root
      | [], [] => .error "no element found"
      | _, _ => .error "junk after document element"

/-- Models ElementTree's `element.find(tag)` with a plain tag name:
the first matching direct child, or `none`. -/
def find (e : Element) (tag : String) : Option Element :=
  e.children.find? (fun c => c.tag == tag)

/-- Models ElementTree's `element.findtext(tag, default)` with a plain
tag name: the text of the first matching direct child, or the default
when no such child exists. -/
def findtext (e : Element) (tag : String) (default : String) : String :=
  match find e tag with
  | some c => c.text
  | none => default

/-- Models ElementTree's `element.findall(tag)` with a plain tag name:
all matching direct children, in document order. -/
def findall (e : Element) (tag : String) : List Element :=
  e.children.filter (fun c => c.tag == tag)

/-- `UnderRoot c r` holds when `c` occurs strictly below `r` in the
element tree, at any depth (direct child or deeper). -/
inductive UnderRoot : Element → Element → Prop where
  | child (c r : Element) : c ∈ r.children → UnderRoot c r
  | nested (c m r : Element) : m ∈ r.children → UnderRoot c m → UnderRoot c r

/-- Models Python's substring containment `needle in hay` on strings,
as a Boolean scan over the character lists. -/
def isInfixB (n : List Char) : List Char → Bool
  | [] => n.isEmpty
  | c :: t => n.isPrefixOf (c :: t) || isInfixB n t

/-- Models Python's `html.unescape` on the basic named and numeric
entities that can occur in the modelled inputs (`&amp;` `&lt;` `&gt;`
`&quot;` `&#39;`); other text passes through unchanged. -/
def unescapeAux : List Char → List Char
  | [] => []
  | '&' :: 'a' :: 'm' :: 'p' :: ';' :: rest => '&' :: unescapeAux rest
  | '&' :: 'l' :: 't' :: ';' :: rest => '<' :: unescapeAux rest
  | '&' :: 'g' :: 't' :: ';' :: rest => '>' :: unescapeAux rest
  | '&' :: 'q' :: 'u' :: 'o' :: 't' :: ';' :: rest => Char.ofNat 34 :: unescapeAux rest
  | '&' :: '#' :: '3' :: '9' :: ';' :: rest => Char.ofNat 39 :: unescapeAux rest
  | c :: rest => c :: unescapeAux rest

/-- String wrapper for `unescapeAux`. -/
def unescape (s : String) : String :=
  String.mk (unescapeAux s.data)

/-- Models the Python slice `l[:n]` for an arbitrary integer `n`:
a nonnegative bound takes a prefix, a negative bound drops that many
elements from the end (clamped at the empty list). -/
def pySliceTo {α : Type} (l : List α) (n : Int) : List α :=
  if 0 ≤ n then l.take n.toNat else l.take (l.length - (-n).toNat)

/-- The exception raised by the program (`RSSParseError`), either
wrapping an underlying `ET.ParseError` diagnostic or carrying the
channel-missing message. -/
inductive RSSParseError where
  | wrapped (diag : String)
  | message (msg : String)
deriving DecidableEq

/-- True exactly when the error is the channel-missing kind (a message
constructed by the program) rather than a wrapped parser diagnostic. -/
def RSSParseError.isChannelMissing : RSSParseError → Bool
  | .wrapped _ => false
  | .message _ => true

/-- Structure of a successful `splitAtGt`: the input is the part before,
the `>`, and the part after, and the part before contains no `>`. -/
theorem splitAtGt_spec : ∀ (l b a : List Char), splitAtGt l = some (b, a) →
    l = b ++ '>' :: a ∧ '>' ∉ b := by
  intro l
  induction l with
  | nil => intro b a h; simp [splitAtGt] at h
  | cons x xs ih =>
    intro b a h
    by_cases hx : x = '>'
    · subst hx
      simp [splitAtGt] at h
      obtain ⟨hb, ha⟩ := h
      subst hb
      subst ha
      simp
    · simp only [splitAtGt, if_neg hx] at h
      cases h3 : splitAtGt xs with
      | none => rw [h3] at h; exact absurd h (by simp)
      | some p =>
        obtain ⟨b2, a2⟩ := p
        rw [h3] at h
        simp only [Option.some.injEq, Prod.mk.injEq] at h
        obtain ⟨hb, ha⟩ := h
        have hxs := ih b2 a2 h3
        subst hb
        subst ha
        refine ⟨by simp [hxs.1], ?_⟩
        simp only [List.mem_cons, not_or]
        exact ⟨fun hgt => hx hgt.symm, hxs.2⟩

/-- `splitAtGt` strictly shrinks the list on the after side. -/
theorem splitAtGt_length {l b a : List Char} (h : splitAtGt l = some (b, a)) :
    a.length < l.length := by
  have := (splitAtGt_spec l b a h).1
  subst this
  simp
  omega

/-- Embeds `strip_html_tags` from `src/main.py`: `re.sub` with the
pattern `<[^>]+>` and the empty replacement, on the character list.
A match starts at a `<`, spans at least one non-`>` character, and
ends at the next `>`; failed match positions are kept and scanning
resumes at the following character, exactly as `re.sub` does. -/
def stripAux : List Char → List Char
  | [] => []
  | c :: rest =>
    if c = '<' then
      match h : splitAtGt rest with
      | some (b, a) =>
        if b = [] then c :: stripAux rest else stripAux a
      | none => c :: stripAux rest
    else c :: stripAux rest
termination_by l => l.length
decreasing_by
  all_goals simp_all
  exact Nat.lt_succ_of_lt (splitAtGt_length h)

/-- Embeds `strip_html_tags` from `src/main.py` at the string level. -/
def strip_html_tags (s : String) : String :=
  String.mk (stripAux s.data)

/-- Embeds `parse_xml` from `src/main.py`: parse the document, wrap a
parse failure, then look for a `channel` element among the direct
children of the root, failing with the channel-missing message when
there is none. -/
def parse_xml (xml : String) : Except RSSParseError Element :=
  match fromstring xml with
  | .error e => .error (RSSParseError.wrapped e)
  | .ok root =>
    match find root "channel" with
    | none => .error (RSSParseError.message "No <channel> element found.")
    | some channel => .ok channel

/-- The feed-level record built by `extract_feed_data` (the Python
dictionary with its fixed keys, as a structure). -/
structure FeedData where
  title : String
  link : String
  lastBuildDate : String
  pubDate : String
  language : String
  managingEditor : String
  description : String
  category : List String
deriving DecidableEq

/-- Embeds `extract_feed_data` from `src/main.py`. -/
def extract_feed_data (channel : Element) : FeedData :=
  { title := findtext channel "title" ""
    link := findtext channel "link" ""
    lastBuildDate := findtext channel "lastBuildDate" ""
    pubDate := findtext channel "pubDate" ""
    language := findtext channel "language" ""
    managingEditor := findtext channel "managingEditor" ""
    description := findtext channel "description" ""
    category :=
      ((findall channel "category").filter (fun c => !(c.text == ""))).map Element.text }

/-- Embeds `filter_by_category` from `src/main.py`: keep the items
whose first `category` child's text contains the argument as a
substring (Python's `in`), with missing text read as the empty
string. -/
def filter_by_category (items : List Element) (category : String) : List Element :=
  items.filter (fun item => isInfixB category.data (findtext item "category" "").data)

/-- Embeds `apply_limit` from `src/main.py`: Python slice `items[:limit]`
when a limit is given, identity otherwise. -/
def apply_limit {α : Type} (items : List α) (limit : Option Int) : List α :=
  match limit with
  | some n => pySliceTo items n
  | none => items

/-- The per-item record built by `extract_item_data`. -/
structure ItemData where
  title : String
  author : String
  pubDate : String
  link : String
  category : String
  description : String
deriving DecidableEq

/-- Embeds `extract_item_data` from `src/main.py`. -/
def extract_item_data (item : Element) : ItemData :=
  { title := findtext item "title" ""
    author := findtext item "author" ""
    pubDate := findtext item "pubDate" ""
    link := findtext item "link" ""
    category := findtext item "category" ""
    description := strip_html_tags (unescape (findtext item "description" "")) }

/-- A JSON value occurring in the rendered document: a string, the
feed-level category list, or the array of item objects (item objects
map keys to strings only). -/
inductive JValue where
  | jstr (s : String)
  | jlist (l : List String)
  | jitems (l : List (List (String × String)))
deriving DecidableEq

/-- Python truthiness test `val not in [None, "", []]` used by
`convert_to_json`, on the modelled JSON values. -/
def jNonEmpty : JValue → Bool
  | .jstr s => !(s == "")
  | .jlist l => !l.isEmpty
  | .jitems l => !l.isEmpty

/-- One conditional key/value insertion of the `convert_to_json`
feed-level loop: the key appears exactly when the value is non-empty. -/
def jEntry (k : String) (v : JValue) : List (String × JValue) :=
  if jNonEmpty v then [(k, v)] else []

/-- One conditional key/value retention of `clean_dict` (item values
are all strings). -/
def sEntry (k v : String) : List (String × String) :=
  if v == "" then [] else [(k, v)]

/-- Embeds `clean_dict` applied to an item dictionary: the item's keys
in insertion order, dropping empty values. -/
def clean_item (d : ItemData) : List (String × String) :=
  sEntry "title" d.title ++ sEntry "author" d.author ++ sEntry "pubDate" d.pubDate ++
    sEntry "link" d.link ++ sEntry "category" d.category ++
    sEntry "description" d.description

/-- The feed-level object built by the fixed-key loop of
`convert_to_json`, in its exact key order. -/
def feed_json_base (fd : FeedData) : List (String × JValue) :=
  jEntry "title" (JValue.jstr fd.title) ++ jEntry "link" (JValue.jstr fd.link) ++
    jEntry "lastBuildDate" (JValue.jstr fd.lastBuildDate) ++
    jEntry "pubDate" (JValue.jstr fd.pubDate) ++
    jEntry "language" (JValue.jstr fd.language) ++
    jEntry "managingEditor" (JValue.jstr fd.managingEditor) ++
    jEntry "description" (JValue.jstr fd.description) ++
    jEntry "category" (JValue.jlist fd.category)

/-- Embeds `convert_to_json` from `src/main.py`, with `json.dumps`
modelled structurally: the result is the ordered key/value list of the
rendered JSON object. -/
def convert_to_json (fd : FeedData) (plain_items : List ItemData) : List (String × JValue) :=
  if plain_items.isEmpty then feed_json_base fd
  else
    if ((plain_items.map clean_item).filter (fun d => !d.isEmpty)).isEmpty then
      feed_json_base fd
    else
      feed_json_base fd ++
        [("items", JValue.jitems ((plain_items.map clean_item).filter (fun d => !d.isEmpty)))]

/-- The lines appended for one item by the loop in `format_plain_text`:
note the first element embeds its separating newline. -/
def item_lines (item : ItemData) : List String :=
  ["\n" ++ "Title:" ++ item.title] ++
    (if item.author == "" then [] else ["Author:" ++ item.author]) ++
    (if item.pubDate == "" then [] else ["Published:" ++ item.pubDate]) ++
    ["Link:" ++ item.link] ++
    (if item.category == "" then [] else ["Categories:" ++ item.category]) ++
    (if item.description == "" then []
     else ["", strip_html_tags item.description])

/-- The feed header lines of `format_plain_text`, in source order. -/
def header_lines (fd : FeedData) : List String :=
  ["Feed:" ++ fd.title, "Link:" ++ fd.link] ++
    (if fd.lastBuildDate == "" then [] else ["LastBuildDate:" ++ fd.lastBuildDate]) ++
    (if fd.pubDate == "" then [] else ["PublishDate:" ++ fd.pubDate]) ++
    (if fd.language == "" then [] else ["Language:" ++ fd.language]) ++
    (if fd.category.isEmpty then []
     else ["Categories:" ++ String.intercalate "," fd.category]) ++
    (if fd.managingEditor == "" then [] else ["Editor:" ++ fd.managingEditor]) ++
    ["Description:" ++ fd.description]

/-- Embeds `format_plain_text` from `src/main.py`: the header lines,
one empty-string separator when any items exist, then the item loop
(a left fold appending each item's lines, exactly as the Python loop
appends). -/
def format_plain_text (fd : FeedData) (plain_items : List ItemData) : List String :=
  plain_items.foldl (fun acc item => acc ++ item_lines item)
    (header_lines fd ++ (if plain_items.isEmpty then [] else [""]))

/-- The item-selection fragment of `rss_parser`: the `item` children of
the channel, filtered when a non-empty category is supplied (Python's
`if category:`), then limited. -/
def select_items (channel : Element) (limit : Option Int) (category : Option String) :
    List Element :=
  apply_limit
    (match category with
     | some c => if c == "" then findall channel "item" else filter_by_category (findall channel "item") c
     | none => findall channel "item")
    limit

/-- The rendered output of `rss_parser`: either the plain-text lines or
the structurally modelled JSON object. -/
inductive Rendered where
  | plainLines (lines : List String)
  | jsonObj (o : List (String × JValue))
deriving DecidableEq

/-- Embeds `rss_parser` from `src/main.py` (the name avoids an
underscore suffix): parse, extract, filter, limit, extract item data,
render.  Exceptions become `Except.error`. -/
def rssParser (xml : String) (limit : Option Int) (json : Bool)
    (category : Option String) : Except RSSParseError Rendered :=
  match parse_xml xml with
  | .error e => .error e
  | .ok channel =>
    match select_items channel limit category with
    | items =>
      match items.map extract_item_data with
      | plain_items =>
        if json then .ok (Rendered.jsonObj (convert_to_json (extract_feed_data channel) plain_items))
        else .ok (Rendered.plainLines (format_plain_text (extract_feed_data channel) plain_items))

/-- The first element satisfying a predicate is the head of the filtered
list. -/
theorem find?_eq_head?_filter {α : Type} (p : α → Bool) : ∀ (l : List α),
    l.find? p = (l.filter p).head? := by
  intro l
  induction l with
  | nil => rfl
  | cons a t ih =>
    by_cases h : p a
    · rw [List.find?_cons_of_pos _ h, List.filter_cons_of_pos h, List.head?_cons]
    · rw [List.find?_cons_of_neg _ h, List.filter_cons_of_neg h, ih]

/-- `findtext` reads the text of the head of the filtered direct
children, with the default for an empty filter result. -/
theorem findtext_eq_head_filter (e : Element) (tag d : String) :
    findtext e tag d =
      (((e.children.filter (fun c => c.tag == tag)).head?.map Element.text).getD d) := by
  unfold findtext find
  rw [find?_eq_head?_filter]
  cases (e.children.filter (fun c => c.tag == tag)).head? <;> rfl

/-- The Boolean substring scan agrees with list-infix containment. -/
theorem isInfixB_iff (n : List Char) : ∀ (l : List Char),
    isInfixB n l = true ↔ n <:+: l := by
  intro l
  induction l with
  | nil => simp [isInfixB, List.isEmpty_iff]
  | cons c t ih =>
    simp [isInfixB, List.isPrefixOf_iff_prefix, ih, List.infix_cons_iff]

/-- Mapping text after filtering on text emptiness equals filtering the
mapped texts. -/
theorem map_text_filter_comm : ∀ (l : List Element),
    (l.filter (fun c => !(c.text == ""))).map Element.text =
      (l.map Element.text).filter (fun t => !(t == "")) := by
  intro l
  induction l with
  | nil => rfl
  | cons x xs ih =>
    by_cases hx : x.text = ""
    · simp [List.filter_cons, List.map_cons, hx, ih]
    · simp [List.filter_cons, List.map_cons, hx, ih]

/-- A left fold that appends blocks equals the accumulator followed by
the concatenated blocks. -/
theorem foldl_append_eq_flatMap {α : Type} (f : α → List String) :
    ∀ (items : List α) (acc : List String),
      items.foldl (fun a it => a ++ f it) acc = acc ++ items.flatMap f := by
  intro items
  induction items with
  | nil => intro acc; simp
  | cons x xs ih =>
    intro acc
    simp [List.foldl_cons, ih, List.flatMap_cons, List.append_assoc]

/-- C4: for every item sequence and every limit N ≥ 0, applying the
limit retains exactly min(N, length) leading items in original order
(a prefix of the sequence), and an absent limit retains all items. -/
theorem apply_limit_nonneg_spec {α : Type} (items : List α) (n : Int) (h : 0 ≤ n) :
    ((apply_limit items (some n)).length = min n.toNat items.length ∧
      apply_limit items (some n) <+: items) ∧
    apply_limit items none = items := by
  have heq : apply_limit items (some n) = items.take n.toNat := by
    show pySliceTo items n = items.take n.toNat
    unfold pySliceTo
    rw [if_pos h]
  refine ⟨⟨?_, ?_⟩, rfl⟩
  · rw [heq]
    simp
  · rw [heq]
    exact List.take_prefix _ _

/-- Witness for C4 at items = [0, 1, 2] and N = 2. -/
theorem apply_limit_nonneg_spec_check :
    (apply_limit ([0, 1, 2] : List Nat) (some 2)).length = 2 :=
  ((apply_limit_nonneg_spec ([0, 1, 2] : List Nat) 2 (by decide)).1.1).trans (by decide)

/-- C9: for every item sequence and every negative limit N < 0, applying
the limit keeps all items except the last |N| (Python `items[:N]`
semantics): the result is the reversal of dropping |N| from the reversed
sequence, it is empty when |N| reaches the sequence length, and its
length is length - |N| (truncated at zero). -/
theorem apply_limit_negative_spec {α : Type} (items : List α) (n : Int) (h : n < 0) :
    apply_limit items (some n) = (items.reverse.drop (-n).toNat).reverse ∧
    (items.length ≤ (-n).toNat → apply_limit items (some n) = []) ∧
    (apply_limit items (some n)).length = items.length - (-n).toNat := by
  have hn : ¬(0 ≤ n) := by omega
  simp only [apply_limit, pySliceTo, if_neg hn]
  refine ⟨?_, ?_, ?_⟩
  · rw [List.drop_reverse, List.reverse_reverse]
  · intro hlen
    have hz : items.length - (-n).toNat = 0 := by omega
    simp [hz]
  · rw [List.length_take]
    exact Nat.min_eq_left (Nat.sub_le _ _)

/-- Witness for C9 at items = [0, 1, 2] and N = -1: the last item is
dropped, not the first two. -/
theorem apply_limit_negative_spec_check :
    apply_limit ([0, 1, 2] : List Nat) (some (-1)) = [0, 1] :=
  ((apply_limit_negative_spec ([0, 1, 2] : List Nat) (-1) (by decide)).1).trans (by decide)

/-- C1 (amended): for every XML text that parses into a tree, `parse_xml`
returns the first `channel` element among the direct children of the
root, and fails with the channel-missing message when no direct child is
a `channel` element (even if one exists deeper, see the
counterexample). -/
theorem parse_xml_direct_child_only (s : String) (r : Element)
    (h : fromstring s = Except.ok r) :
    (∀ c, (r.children.filter (fun e => e.tag == "channel")).head? = some c →
        parse_xml s = Except.ok c) ∧
    (r.children.filter (fun e => e.tag == "channel") = [] →
        parse_xml s = Except.error (RSSParseError.message "No <channel> element found.")) := by
  constructor
  · intro c hc
    simp [parse_xml, h, find, find?_eq_head?_filter, hc]
  · intro hnil
    simp [parse_xml, h, find, find?_eq_head?_filter, hnil]

/-- Counterexample to C1 as stated: on
`<rss><w><channel></channel></w></rss>` a `channel` element exists under
the root (at depth two), yet `parse_xml` fails with the channel-missing
error, because the code searches only the direct children of the root. -/
theorem parse_xml_nested_channel_not_found :
    fromstring "<rss><w><channel></channel></w></rss>" =
      Except.ok (Element.mk "rss" "" [Element.mk "w" "" [Element.mk "channel" "" []]]) ∧
    UnderRoot (Element.mk "channel" "" [])
      (Element.mk "rss" "" [Element.mk "w" "" [Element.mk "channel" "" []]]) ∧
    (Element.mk "channel" "" []).tag = "channel" ∧
    parse_xml "<rss><w><channel></channel></w></rss>" =
      Except.error (RSSParseError.message "No <channel> element found.") :=
  ⟨rfl,
    UnderRoot.nested _ (Element.mk "w" "" [Element.mk "channel" "" []]) _
      (List.mem_singleton.mpr rfl)
      (UnderRoot.child _ _ (List.mem_singleton.mpr rfl)),
    rfl, rfl⟩

/-- Witness for the amended C1 on a direct-child channel. -/
theorem parse_xml_direct_child_only_check :
    parse_xml "<rss><channel></channel></rss>" = Except.ok (Element.mk "channel" "" []) :=
  (parse_xml_direct_child_only "<rss><channel></channel></rss>"
      (Element.mk "rss" "" [Element.mk "channel" "" []]) rfl).1
    (Element.mk "channel" "" []) rfl

/-- C2 (amended): inputs that fail to parse — including the empty
string — make the pipeline fail with an error wrapping the parser
diagnostic; well-formed inputs without a direct-child `channel` element,
such as `<rss></rss>`, make it fail with the channel-missing error.
Either way the pipeline returns an error, never a crash or an empty
success. -/
theorem rssParser_failure_modes :
    (∀ s e limit json category, fromstring s = Except.error e →
        rssParser s limit json category = Except.error (RSSParseError.wrapped e)) ∧
    (∀ s r limit json category, fromstring s = Except.ok r →
        r.children.filter (fun x => x.tag == "channel") = [] →
        rssParser s limit json category =
          Except.error (RSSParseError.message "No <channel> element found.")) ∧
    rssParser "" none false none = Except.error (RSSParseError.wrapped "no element found") ∧
    rssParser "<rss></rss>" none false none =
      Except.error (RSSParseError.message "No <channel> element found.") := by
  refine ⟨?_, ?_, rfl, rfl⟩
  · intro s e limit json category h
    simp [rssParser, parse_xml, h]
  · intro s r limit json category h hnil
    simp [rssParser, parse_xml, h, find, find?_eq_head?_filter, hnil]

/-- Counterexample to C2 as stated: the empty string yields a wrapped
parse error, not a channel-missing error. -/
theorem rssParser_empty_input_parse_error :
    rssParser "" none false none = Except.error (RSSParseError.wrapped "no element found") ∧
    RSSParseError.isChannelMissing (RSSParseError.wrapped "no element found") = false :=
  ⟨rfl, rfl⟩

/-- Witness for the amended C2 on a malformed input. -/
theorem rssParser_failure_modes_check :
    rssParser "<a" none false none = Except.error (RSSParseError.wrapped "unclosed tag") :=
  rssParser_failure_modes.1 "<a" "unclosed tag" none false none rfl

/-- C3: for a non-empty category string the pipeline filters first and
limits afterwards; the filter retains exactly the items whose first
`category` child's text contains the string as a (case-sensitive)
substring, excludes every item whose category text is empty or missing,
and never reorders (the result is a sublist of the input). -/
theorem filter_before_limit_spec (channel : Element) (limit : Option Int) (c : String)
    (hc : c ≠ "") :
    select_items channel limit (some c) =
      apply_limit (filter_by_category (findall channel "item") c) limit ∧
    (∀ it, it ∈ filter_by_category (findall channel "item") c ↔
        (it ∈ findall channel "item" ∧ c.data <:+: (findtext it "category" "").data)) ∧
    (∀ it, it ∈ findall channel "item" → findtext it "category" "" = "" →
        it ∉ filter_by_category (findall channel "item") c) ∧
    (filter_by_category (findall channel "item") c).Sublist (findall channel "item") := by
  refine ⟨?_, ?_, ?_, ?_⟩
  · simp [select_items, hc]
  · intro it
    simp [filter_by_category, List.mem_filter, isInfixB_iff]
  · intro it hmem htext hcontra
    rw [filter_by_category, List.mem_filter, isInfixB_iff, htext] at hcontra
    have : c.data = [] := List.infix_nil.mp hcontra.2
    exact hc (String.ext this)
  · exact List.filter_sublist _

/-- Witness for C3: filtering a one-item channel by an infix of its
category string. -/
theorem filter_before_limit_spec_check :
    select_items (Element.mk "channel" "" [Element.mk "item" "" [Element.mk "category" "news" []]])
        none (some "ew") =
      apply_limit
        (filter_by_category
          (findall (Element.mk "channel" ""
            [Element.mk "item" "" [Element.mk "category" "news" []]]) "item") "ew")
        none :=
  (filter_before_limit_spec
      (Element.mk "channel" "" [Element.mk "item" "" [Element.mk "category" "news" []]])
      none "ew" (by decide)).1

/-- C7: the metadata extractor returns, for each scalar field, the text
of the first matching direct child (empty string when absent), and for
categories the texts of the direct-child `category` elements with
non-empty text in document order; being a total function it never
fails. -/
theorem extract_feed_data_fields_spec (channel : Element) :
    (extract_feed_data channel).title =
      (((channel.children.filter (fun c => c.tag == "title")).head?.map Element.text).getD "") ∧
    (extract_feed_data channel).link =
      (((channel.children.filter (fun c => c.tag == "link")).head?.map Element.text).getD "") ∧
    (extract_feed_data channel).lastBuildDate =
      (((channel.children.filter (fun c => c.tag == "lastBuildDate")).head?.map
          Element.text).getD "") ∧
    (extract_feed_data channel).pubDate =
      (((channel.children.filter (fun c => c.tag == "pubDate")).head?.map Element.text).getD "") ∧
    (extract_feed_data channel).language =
      (((channel.children.filter (fun c => c.tag == "language")).head?.map Element.text).getD "") ∧
    (extract_feed_data channel).managingEditor =
      (((channel.children.filter (fun c => c.tag == "managingEditor")).head?.map
          Element.text).getD "") ∧
    (extract_feed_data channel).description =
      (((channel.children.filter (fun c => c.tag == "description")).head?.map
          Element.text).getD "") ∧
    (extract_feed_data channel).category =
      ((channel.children.filter (fun c => c.tag == "category")).map Element.text).filter
        (fun t => !(t == "")) := by
  refine ⟨findtext_eq_head_filter _ _ _, findtext_eq_head_filter _ _ _,
    findtext_eq_head_filter _ _ _, findtext_eq_head_filter _ _ _,
    findtext_eq_head_filter _ _ _, findtext_eq_head_filter _ _ _,
    findtext_eq_head_filter _ _ _, ?_⟩
  show ((findall channel "category").filter (fun c => !(c.text == ""))).map Element.text = _
  rw [findall, map_text_filter_comm]

/-- C8: the example feed with title T, link http://x, description D and
no items renders in plain-text mode as exactly the three lines
Feed:T, Link:http://x, Description:D. -/
theorem rssParser_plain_example :
    rssParser
        "<rss><channel><title>T</title><link>http://x</link><description>D</description></channel></rss>"
        none false none =
      Except.ok (Rendered.plainLines ["Feed:T", "Link:http://x", "Description:D"]) :=
  rfl

/-- C10: the plain-text renderer appends, per item, a first element that
is the single string `"\nTitle:<title>"` with an embedded leading
newline — the separating blank line before an item block is not a
separate list element.  The output decomposes as header, one optional
empty-string separator, then the concatenated item blocks. -/
theorem format_plain_text_item_blocks (fd : FeedData) (plain_items : List ItemData) :
    format_plain_text fd plain_items =
      header_lines fd ++ ((if plain_items.isEmpty then [] else [""]) ++
        plain_items.flatMap item_lines) ∧
    ∀ it, it ∈ plain_items →
      (item_lines it).head? = some ("\n" ++ "Title:" ++ it.title) ∧
      ("\n" ++ "Title:" ++ it.title).data.head? = some '\n' := by
  constructor
  · rw [format_plain_text, foldl_append_eq_flatMap, List.append_assoc]
  · intro it hmem
    constructor
    · rfl
    · rw [String.data_append, String.data_append]
      rfl

/-- Witness for C10 on a singleton item list. -/
theorem format_plain_text_item_blocks_check :
    (item_lines (ItemData.mk "t" "" "" "l" "" "")).head? = some ("\n" ++ "Title:" ++ "t") :=
  ((format_plain_text_item_blocks (FeedData.mk "" "" "" "" "" "" "" [])
      [ItemData.mk "t" "" "" "l" "" ""]).2 (ItemData.mk "t" "" "" "l" "" "")
    (by decide)).1

/-- Unfolding: stripping the empty list. -/
theorem stripAux_nil : stripAux [] = [] := by
  simp [stripAux]

/-- Unfolding: a character other than `<` is kept. -/
theorem stripAux_cons_ne (c : Char) (rest : List Char) (hc : ¬(c = '<')) :
    stripAux (c :: rest) = c :: stripAux rest := by
  rw [stripAux]
  simp [hc]

/-- Unfolding: a `<` with no `>` anywhere after it is kept. -/
theorem stripAux_lt_none (rest : List Char) (h : splitAtGt rest = none) :
    stripAux ('<' :: rest) = '<' :: stripAux rest := by
  rw [stripAux]
  split
  · split
    · rename_i b2 a2 heq
      rw [h] at heq
      cases heq
    · rfl
  · rename_i heq
    exact absurd rfl heq

/-- Unfolding: a `<` immediately followed by `>` starts no match
(the character class requires at least one character) and is kept. -/
theorem stripAux_lt_emptyb (rest a : List Char) (h : splitAtGt rest = some ([], a)) :
    stripAux ('<' :: rest) = '<' :: stripAux rest := by
  rw [stripAux]
  split
  · split
    · rename_i b2 a2 heq
      rw [h] at heq
      injection heq with heq2
      injection heq2 with h1 h2
      rw [if_pos h1.symm]
    · rename_i heq
      rw [h] at heq
  · rename_i heq
    exact absurd rfl heq

/-- Unfolding: a `<` with at least one non-`>` character before the
next `>` starts a match; everything through that `>` is removed. -/
theorem stripAux_lt_match (rest b a : List Char) (h : splitAtGt rest = some (b, a))
    (hb : ¬(b = [])) : stripAux ('<' :: rest) = stripAux a := by
  rw [stripAux]
  split
  · split
    · rename_i b2 a2 heq
      rw [h] at heq
      injection heq with heq2
      injection heq2 with h1 h2
      subst h1
      subst h2
      rw [if_neg hb]
    · rename_i heq
      rw [h] at heq
      cases heq
  · rename_i heq
    exact absurd rfl heq

/-- A `>`-free list splits at no `>`. -/
theorem splitAtGt_eq_none_iff : ∀ (l : List Char), splitAtGt l = none ↔ '>' ∉ l := by
  intro l
  induction l with
  | nil => simp [splitAtGt]
  | cons c rest ih =>
    by_cases hc : c = '>'
    · subst hc
      simp [splitAtGt]
    · simp only [splitAtGt, if_neg hc]
      cases h : splitAtGt rest with
      | none =>
        simp [List.mem_cons, ih.mp h, Ne.symm hc]
      | some p =>
        obtain ⟨b, a⟩ := p
        have : '>' ∈ rest := by
          by_contra hmem
          rw [(ih.mpr hmem : splitAtGt rest = none)] at h
          exact absurd h (by simp)
        simp [List.mem_cons, this]

/-- The stripped list only rearranges removals: it is a sublist of the
input. -/
theorem stripAux_sublist : ∀ (l : List Char), (stripAux l).Sublist l
  | [] => by
    rw [stripAux_nil]
  | c :: rest => by
    by_cases hc : c = '<'
    · subst hc
      cases h : splitAtGt rest with
      | none =>
        rw [stripAux_lt_none rest h]
        exact (stripAux_sublist rest).cons₂ '<'
      | some p =>
        obtain ⟨b, a⟩ := p
        by_cases hb : b = []
        · subst hb
          rw [stripAux_lt_emptyb rest a h]
          exact (stripAux_sublist rest).cons₂ '<'
        · rw [stripAux_lt_match rest b a h hb]
          have ha : a.Sublist rest := by
            rw [(splitAtGt_spec rest b a h).1]
            exact ((List.sublist_cons_self '>' a).trans (List.sublist_append_right b _))
          exact ((stripAux_sublist a).trans ha).cons '<'
    · rw [stripAux_cons_ne c rest hc]
      exact (stripAux_sublist rest).cons₂ c
termination_by l => l.length
decreasing_by
  all_goals simp
  exact Nat.lt_succ_of_lt (splitAtGt_length h)

/-- Characterizes lists on which the tag-stripping pass is the
identity: every `<` is immediately followed by `>` or has no `>`
anywhere after it, so no position starts a match of `<[^>]+>`. -/
def Stripped : List Char → Prop
  | [] => True
  | c :: rest =>
    (c = '<' → (splitAtGt rest = none ∨ ∃ a, splitAtGt rest = some ([], a))) ∧ Stripped rest

/-- Stripping a `Stripped` list changes nothing. -/
theorem stripAux_of_stripped : ∀ (l : List Char), Stripped l → stripAux l = l := by
  intro l
  induction l with
  | nil => intro _; exact stripAux_nil
  | cons c rest ih =>
    intro hs
    by_cases hc : c = '<'
    · subst hc
      rcases hs.1 rfl with hn | ⟨a, ha⟩
      · rw [stripAux_lt_none rest hn, ih hs.2]
      · rw [stripAux_lt_emptyb rest a ha, ih hs.2]
    · rw [stripAux_cons_ne c rest hc, ih hs.2]

/-- The output of the tag-stripping pass is always `Stripped`: a kept
`<` is either immediately followed by a kept `>` or has no `>` after it,
and removal only deletes characters, preserving both shapes. -/
theorem stripped_stripAux : ∀ (l : List Char), Stripped (stripAux l)
  | [] => by
    rw [stripAux_nil]
    trivial
  | c :: rest => by
    by_cases hc : c = '<'
    · subst hc
      cases h : splitAtGt rest with
      | none =>
        rw [stripAux_lt_none rest h]
        refine ⟨fun _ => Or.inl ?_, stripped_stripAux rest⟩
        rw [splitAtGt_eq_none_iff]
        intro hmem
        exact (splitAtGt_eq_none_iff rest).mp h ((stripAux_sublist rest).mem hmem)
      | some p =>
        obtain ⟨b, a⟩ := p
        by_cases hb : b = []
        · subst hb
          have hrest : rest = '>' :: a := by
            simpa using (splitAtGt_spec rest [] a h).1
          rw [stripAux_lt_emptyb rest a h]
          have hstep : stripAux rest = '>' :: stripAux a := by
            rw [hrest, stripAux_cons_ne '>' a (by decide)]
          refine ⟨fun _ => Or.inr ⟨stripAux a, ?_⟩, ?_⟩
          · rw [hstep]
            simp [splitAtGt]
          · exact stripped_stripAux rest
        · rw [stripAux_lt_match rest b a h hb]
          exact stripped_stripAux a
    · rw [stripAux_cons_ne c rest hc]
      exact ⟨fun h => absurd h hc, stripped_stripAux rest⟩
termination_by l => l.length
decreasing_by
  all_goals simp
  exact Nat.lt_succ_of_lt (splitAtGt_length h)

/-- C6: the HTML tag stripper is idempotent — stripping tags from
already-stripped text yields the same text, so the defensive re-strip
in plain-text rendering never changes an already-stripped
description. -/
theorem strip_html_tags_idempotent (s : String) :
    strip_html_tags (strip_html_tags s) = strip_html_tags s :=
  congrArg String.mk (stripAux_of_stripped _ (stripped_stripAux s.data))

/-- Membership in a conditional feed-level JSON entry. -/
theorem mem_jEntry {k k2 : String} {v v2 : JValue} :
    (k, v) ∈ jEntry k2 v2 ↔ (k = k2 ∧ v = v2 ∧ jNonEmpty v2 = true) := by
  unfold jEntry
  split
  · rename_i hnv
    simp [Prod.ext_iff, hnv]
  · rename_i hnv
    simp [hnv]

/-- Membership in a retained `clean_dict` entry. -/
theorem mem_sEntry {k k2 v v2 : String} :
    (k, v) ∈ sEntry k2 v2 ↔ (k = k2 ∧ v = v2 ∧ ¬(v2 = "")) := by
  unfold sEntry
  split
  · rename_i hv
    have h0 : v2 = "" := by simpa using hv
    simp [h0]
  · rename_i hv
    have h0 : ¬(v2 = "") := by simpa using hv
    simp [Prod.ext_iff, h0]

/-- A retained `clean_dict` entry is empty exactly when its value is. -/
theorem sEntry_eq_nil {k v : String} : sEntry k v = [] ↔ v = "" := by
  unfold sEntry
  split
  · rename_i h
    have h0 : v = "" := by simpa using h
    simp [h0]
  · rename_i h
    have h0 : ¬(v = "") := by simpa using h
    simp [h0]

/-- A cleaned item object is empty exactly when every field of the item
is empty. -/
theorem clean_item_eq_nil {d : ItemData} :
    clean_item d = [] ↔
      (d.title = "" ∧ d.author = "" ∧ d.pubDate = "" ∧ d.link = "" ∧
        d.category = "" ∧ d.description = "") := by
  simp [clean_item, List.append_eq_nil, sEntry_eq_nil]

/-- Every pair in the feed-level JSON object is a non-empty value of
its own key; no pair carries the `items` key. -/
theorem mem_feed_json_base {fd : FeedData} {k : String} {v : JValue}
    (h : (k, v) ∈ feed_json_base fd) :
    jNonEmpty v = true ∧
    (k = "title" → v = JValue.jstr fd.title) ∧
    (k = "link" → v = JValue.jstr fd.link) ∧
    (k = "lastBuildDate" → v = JValue.jstr fd.lastBuildDate) ∧
    (k = "pubDate" → v = JValue.jstr fd.pubDate) ∧
    (k = "language" → v = JValue.jstr fd.language) ∧
    (k = "managingEditor" → v = JValue.jstr fd.managingEditor) ∧
    (k = "description" → v = JValue.jstr fd.description) ∧
    (k = "category" → v = JValue.jlist fd.category) ∧
    ¬(k = "items") := by
  simp only [feed_json_base, List.mem_append, mem_jEntry] at h
  rcases h with (((((((⟨rfl, rfl, hne⟩ | ⟨rfl, rfl, hne⟩) | ⟨rfl, rfl, hne⟩) |
      ⟨rfl, rfl, hne⟩) | ⟨rfl, rfl, hne⟩) | ⟨rfl, rfl, hne⟩) | ⟨rfl, rfl, hne⟩) |
      ⟨rfl, rfl, hne⟩) <;>
    refine ⟨hne, ?_, ?_, ?_, ?_, ?_, ?_, ?_, ?_, ?_⟩ <;> intro hk <;>
    first
      | rfl
      | exact absurd hk (by decide)

/-- Membership in the rendered JSON object: either a feed-level pair or
the `items` pair, the latter present only when the cleaned item list is
non-empty. -/
theorem mem_convert_iff {fd : FeedData} {items : List ItemData} {k : String} {v : JValue} :
    (k, v) ∈ convert_to_json fd items ↔
      ((k, v) ∈ feed_json_base fd ∨
        (k = "items" ∧
          v = JValue.jitems ((items.map clean_item).filter (fun d => !d.isEmpty)) ∧
          ¬((items.map clean_item).filter (fun d => !d.isEmpty)) = [])) := by
  unfold convert_to_json
  split
  · rename_i hempty
    have h0 : items = [] := by simpa using hempty
    subst h0
    simp
  · rename_i hne
    split
    · rename_i hfil
      have h0 : ((items.map clean_item).filter (fun d => !d.isEmpty)) = [] := by
        simpa using hfil
      simp [h0]
    · rename_i hfil
      have h0 : ¬((items.map clean_item).filter (fun d => !d.isEmpty)) = [] := by
        simpa using hfil
      simp [List.mem_append, Prod.ext_iff, h0]

/-- The cleaned item list is non-empty exactly when some item cleans to
a non-empty object. -/
theorem items_clean_ne_nil_iff {items : List ItemData} :
    ¬((items.map clean_item).filter (fun d => !d.isEmpty)) = [] ↔
      ∃ d, d ∈ items ∧ ¬(clean_item d = []) := by
  rw [List.filter_eq_nil_iff]
  push_neg
  constructor
  · rintro ⟨x, hx, hne⟩
    obtain ⟨d, hd, rfl⟩ := List.mem_map.mp hx
    refine ⟨d, hd, ?_⟩
    simpa [List.isEmpty_iff] using hne
  · rintro ⟨d, hd, hne⟩
    refine ⟨clean_item d, List.mem_map_of_mem _ hd, ?_⟩
    simpa [List.isEmpty_iff] using hne

/-- C5: the JSON renderer's output contains no key with an empty value;
every feed-level key that appears carries exactly the corresponding
(non-empty) source field; the `items` key is present exactly when some
item has at least one non-empty field; and every item object consists
exactly of that item's non-empty source fields. -/
theorem convert_to_json_omits_empty (fd : FeedData) (items : List ItemData) :
    (∀ k v, (k, v) ∈ convert_to_json fd items → jNonEmpty v = true) ∧
    (∀ v, ("title", v) ∈ convert_to_json fd items → v = JValue.jstr fd.title) ∧
    (∀ v, ("link", v) ∈ convert_to_json fd items → v = JValue.jstr fd.link) ∧
    (∀ v, ("lastBuildDate", v) ∈ convert_to_json fd items → v = JValue.jstr fd.lastBuildDate) ∧
    (∀ v, ("pubDate", v) ∈ convert_to_json fd items → v = JValue.jstr fd.pubDate) ∧
    (∀ v, ("language", v) ∈ convert_to_json fd items → v = JValue.jstr fd.language) ∧
    (∀ v, ("managingEditor", v) ∈ convert_to_json fd items → v = JValue.jstr fd.managingEditor) ∧
    (∀ v, ("description", v) ∈ convert_to_json fd items → v = JValue.jstr fd.description) ∧
    (∀ v, ("category", v) ∈ convert_to_json fd items → v = JValue.jlist fd.category) ∧
    ((∃ v, ("items", v) ∈ convert_to_json fd items) ↔
      ∃ d, d ∈ items ∧ ¬(clean_item d = [])) ∧
    (∀ L, ("items", JValue.jitems L) ∈ convert_to_json fd items →
      ∀ obj, obj ∈ L → (∃ d, d ∈ items ∧ obj = clean_item d) ∧ ¬(obj = [])) ∧
    (∀ d k2 v2, (k2, v2) ∈ clean_item d →
      ¬(v2 = "") ∧
        ((k2 = "title" ∧ v2 = d.title) ∨ (k2 = "author" ∧ v2 = d.author) ∨
          (k2 = "pubDate" ∧ v2 = d.pubDate) ∨ (k2 = "link" ∧ v2 = d.link) ∨
          (k2 = "category" ∧ v2 = d.category) ∨
          (k2 = "description" ∧ v2 = d.description))) ∧
    (∀ d, ¬(clean_item d = []) ↔
      (¬(d.title = "") ∨ ¬(d.author = "") ∨ ¬(d.pubDate = "") ∨ ¬(d.link = "") ∨
        ¬(d.category = "") ∨ ¬(d.description = ""))) := by
  refine ⟨?_, ?_, ?_, ?_, ?_, ?_, ?_, ?_, ?_, ?_, ?_, ?_, ?_⟩
  · intro k v h
    rcases mem_convert_iff.mp h with hb | ⟨_, rfl, hf⟩
    · exact (mem_feed_json_base hb).1
    · simp [jNonEmpty, List.isEmpty_iff, hf]
  · intro v h
    rcases mem_convert_iff.mp h with hb | ⟨hk, _, _⟩
    · exact (mem_feed_json_base hb).2.1 rfl
    · exact absurd hk (by decide)
  · intro v h
    rcases mem_convert_iff.mp h with hb | ⟨hk, _, _⟩
    · exact (mem_feed_json_base hb).2.2.1 rfl
    · exact absurd hk (by decide)
  · intro v h
    rcases mem_convert_iff.mp h with hb | ⟨hk, _, _⟩
    · exact (mem_feed_json_base hb).2.2.2.1 rfl
    · exact absurd hk (by decide)
  · intro v h
    rcases mem_convert_iff.mp h with hb | ⟨hk, _, _⟩
    · exact (mem_feed_json_base hb).2.2.2.2.1 rfl
    · exact absurd hk (by decide)
  · intro v h
    rcases mem_convert_iff.mp h with hb | ⟨hk, _, _⟩
    · exact (mem_feed_json_base hb).2.2.2.2.2.1 rfl
    · exact absurd hk (by decide)
  · intro v h
    rcases mem_convert_iff.mp h with hb | ⟨hk, _, _⟩
    · exact (mem_feed_json_base hb).2.2.2.2.2.2.1 rfl
    · exact absurd hk (by decide)
  · intro v h
    rcases mem_convert_iff.mp h with hb | ⟨hk, _, _⟩
    · exact (mem_feed_json_base hb).2.2.2.2.2.2.2.1 rfl
    · exact absurd hk (by decide)
  · intro v h
    rcases mem_convert_iff.mp h with hb | ⟨hk, _, _⟩
    · exact (mem_feed_json_base hb).2.2.2.2.2.2.2.2.1 rfl
    · exact absurd hk (by decide)
  · constructor
    · rintro ⟨v, hv⟩
      rcases mem_convert_iff.mp hv with hb | ⟨_, _, hf⟩
      · exact absurd rfl (mem_feed_json_base hb).2.2.2.2.2.2.2.2.2
      · exact items_clean_ne_nil_iff.mp hf
    · intro hex
      have hf := items_clean_ne_nil_iff.mpr hex
      exact ⟨_, mem_convert_iff.mpr (Or.inr ⟨rfl, rfl, hf⟩)⟩
  · intro L hL obj hobj
    rcases mem_convert_iff.mp hL with hb | ⟨_, hv, _⟩
    · exact absurd rfl (mem_feed_json_base hb).2.2.2.2.2.2.2.2.2
    · injection hv with hL2
      subst hL2
      have h1 := List.mem_filter.mp hobj
      obtain ⟨d, hd, rfl⟩ := List.mem_map.mp h1.1
      refine ⟨⟨d, hd, rfl⟩, ?_⟩
      simpa [List.isEmpty_iff] using h1.2
  · intro d k2 v2 h
    simp only [clean_item, List.mem_append, mem_sEntry] at h
    rcases h with ((((⟨rfl, rfl, hne⟩ | ⟨rfl, rfl, hne⟩) | ⟨rfl, rfl, hne⟩) |
        ⟨rfl, rfl, hne⟩) | ⟨rfl, rfl, hne⟩) | ⟨rfl, rfl, hne⟩ <;>
      exact ⟨hne, by tauto⟩
  · intro d
    rw [not_iff_comm, clean_item_eq_nil]
    push_neg
    tauto

/-- Witness for C5: the title key of a concrete rendered feed carries a
non-empty value. -/
theorem convert_to_json_omits_empty_check :
    jNonEmpty (JValue.jstr "T") = true :=
  (convert_to_json_omits_empty (FeedData.mk "T" "" "" "" "" "" "" []) []).1 "title"
    (JValue.jstr "T") (by decide)
